import Mathlib

/-!
Verification of the semantic document chunker
(`src/utils/basetools/semantic_splitter.py`).

The chunker segments raw text into sentences, obtains one similarity
score per adjacent sentence pair from externally computed embeddings,
and greedily packs sentences into chunks subject to a token budget and
a topic-continuity threshold, optionally carrying trailing overlap
sentences into each new chunk.

This file gives a shallow embedding of the relevant Python code:

* machine floats are modelled as `ℚ` (the claims only compare scores
  against thresholds);
* Python list indexing (with negative-index wraparound and
  `IndexError`) is modelled by `pyGet` returning an `Option`;
* Python slicing `xs[i:]` is modelled by `pySliceFrom`;
* Python `str.strip` is modelled by `pyStrip` over the ASCII
  whitespace characters;
* a computation that can raise is modelled in `Option`, `none`
  standing for an uncaught exception.

The assembler state mirrors the source exactly, except that the two
parallel Python lists `chunks` (lists of sentences) and `counts` (own
token counts) are merged into one record `Chunk`, together with a
specification-only ghost field `seedLen` recording how many leading
sentences of the chunk were carried over as overlap seed.  `seedLen`
is never consulted by the executable path (rendering uses only
`sents`).  The in-progress chunk list is kept reversed (current chunk
first) and reversed back at the end, the standard accumulator
translation of Python's append-at-end loop.
-/

namespace SemanticSplitter

/-- The ASCII whitespace characters stripped by Python `str.strip()`
(space, tab, newline, carriage return, vertical tab, form feed). -/
def isPyWhitespace (c : Char) : Bool :=
  c = ' ' || c = '\t' || c = '\n' || c = '\r' || c = '\x0b' || c = '\x0c'

/-- Python `str.strip()` on the character list: drop leading and
trailing whitespace. -/
def pyStripChars (cs : List Char) : List Char :=
  ((cs.dropWhile isPyWhitespace).reverse.dropWhile isPyWhitespace).reverse

/-- Python `str.strip()`. -/
def pyStrip (s : String) : String :=
  String.mk (pyStripChars s.data)

/-- Python sequence indexing `xs[i]`: a negative index wraps around
once (`xs[-1]` is the last element); an index that is still out of
range raises `IndexError`, modelled as `none`. -/
def pyGet (xs : List ℚ) (i : Int) : Option ℚ :=
  let j : Int := if i < 0 then i + xs.length else i
  if 0 ≤ j then xs.get? j.toNat else none

/-- Python slicing `xs[i:]` (start index only): a nonnegative start
drops that many elements, a negative start counts from the end,
clamping at the bounds.  Never raises. -/
def pySliceFrom {α : Type} (xs : List α) (i : Int) : List α :=
  if i < 0 then xs.drop ((xs.length + i).toNat) else xs.drop i.toNat

/-- `\w` of Python `re` restricted to ASCII: letters, digits and the
underscore. -/
def isWordChar (c : Char) : Bool :=
  c.isAlphanum || c = '_'

/-- Count the maximal runs of word characters in a character list;
`inWord` records whether the previous character was a word character.
This is `len(re.findall(r"\w+", text))`. -/
def countRuns : List Char → Bool → Nat
  | [], _ => 0
  | c :: cs, inWord =>
    if isWordChar c then
      (if inWord then 0 else 1) + countRuns cs true
    else
      countRuns cs false

/-- `SemanticSplitter._estimate_tokens`: the number of maximal
word-character runs in the text. -/
def estimate_tokens (s : String) : Nat :=
  countRuns s.data false

/-- Total token estimate of a list of sentences
(`sum(map(self._estimate_tokens, ...))`). -/
def sumTokens (l : List String) : Nat :=
  (l.map estimate_tokens).sum

/-- The configuration fields of the `SemanticSplitter` dataclass that
the splitting loop reads.  The dataclass performs no validation of
these fields (`__post_init__` only builds the spaCy pipeline and the
sentence-transformer model), so every value of this structure is
accepted by the code. -/
structure Config where
  max_tokens : Int
  min_similarity : ℚ
  overlap : Int
deriving Repr, DecidableEq

/-- One in-progress or finished chunk.  `sents` is the entry of the
Python list `chunks`, `count` the parallel entry of `counts`.
`seedLen` is ghost instrumentation: the number of leading sentences of
this chunk that were carried over as overlap seed when the chunk was
opened (0 for the initial chunk).  It is used only to state
properties, never by the executable path. -/
structure Chunk where
  sents : List String
  count : Int
  seedLen : Nat
deriving Repr, DecidableEq

/-- The overlap seed taken from a closing chunk:
`chunks[-1][-self.overlap:] if self.overlap else []`. -/
def overlapSeed (cfg : Config) (sents : List String) : List String :=
  if cfg.overlap ≠ 0 then pySliceFrom sents (-cfg.overlap) else []

/-- The condition `not chunks[-1] or sims[i - 1] >= self.min_similarity`
exactly as the source evaluates it: Python `or` short-circuits, so the
similarity lookup happens only when the current chunk is nonempty.
The lookup itself has Python semantics (wraparound, `IndexError` as
`none`). -/
def same_topic_code (cfg : Config) (sims : List ℚ) (i : Nat) (cur : List String) :
    Option Bool :=
  if cur = [] then some true
  else (pyGet sims ((i : Int) - 1)).map (fun v => decide (cfg.min_similarity ≤ v))

/-- The same boolean expression under strict (non-short-circuiting)
evaluation: the similarity lookup `sims[i - 1]` is performed
unconditionally.  This definition is not part of the program model; it
exists to show which behaviour the source would have if it did not
rely on Python's short-circuit `or`. -/
def same_topic_strict (cfg : Config) (sims : List ℚ) (i : Nat) (cur : List String) :
    Option Bool :=
  (pyGet sims ((i : Int) - 1)).map
    (fun v => decide (cur = []) || decide (cfg.min_similarity ≤ v))

/-- One iteration of the loop body of `SemanticSplitter.split` for
sentence `sent` at index `i`.  The state is the current chunk
(`chunks[-1]`/`counts[-1]`) paired with the already-closed chunks in
reverse order. -/
def step (cfg : Config) (sims : List ℚ) (i : Nat) (sent : String)
    (st : Chunk × List Chunk) : Option (Chunk × List Chunk) :=
  let tokens : Int := (estimate_tokens sent : Int)
  match same_topic_code cfg sims i st.1.sents with
  | none => none
  | some same_topic =>
    if same_topic && decide (st.1.count + tokens ≤ cfg.max_tokens) then
      some (⟨st.1.sents ++ [sent], st.1.count + tokens, st.1.seedLen⟩, st.2)
    else
      let ov := overlapSeed cfg st.1.sents
      some (⟨ov ++ [sent], (sumTokens ov : Int) + tokens, ov.length⟩, st.1 :: st.2)

/-- The loop `for i, sent in enumerate(sentences)` of
`SemanticSplitter.split`, threading the state through `step`. -/
def assembleAux (cfg : Config) (sims : List ℚ) :
    Nat → List String → Chunk × List Chunk → Option (Chunk × List Chunk)
  | _, [], st => some st
  | i, sent :: rest, st =>
    match step cfg sims i sent st with
    | none => none
    | some st2 => assembleAux cfg sims (i + 1) rest st2

/-- The chunk-assembly pass of `SemanticSplitter.split`: start from one
empty chunk with count 0 and fold the loop body over the sentences;
the final chunk list is returned in first-appearance order. -/
def assemble (cfg : Config) (sims : List ℚ) (sents : List String) :
    Option (List Chunk) :=
  (assembleAux cfg sims 0 sents (⟨[], 0, 0⟩, [])).map (fun st => (st.1 :: st.2).reverse)

/-- The rendering of the final chunk list:
`[" ".join(c).strip() for c in chunks if c]`. -/
def render (chunks : List Chunk) : List String :=
  (chunks.filter (fun c => decide (c.sents ≠ []))).map
    (fun c => pyStrip (String.intercalate " " c.sents))

/-- `SemanticSplitter._sentences`: segment the stripped text with the
spaCy sentencizer (abstracted as `nlp`), strip each sentence and keep
the nonempty ones. -/
def sentencesOf (nlp : String → List String) (text : String) : List String :=
  ((nlp (pyStrip text)).map pyStrip).filter (fun s => decide (s ≠ ""))

/-- Dot product of two embedding vectors. -/
def dot (a b : List ℚ) : ℚ :=
  (List.zipWith (fun x y => x * y) a b).sum

/-- `SemanticSplitter._pairwise_similarities`: with fewer than two
embeddings the empty array, otherwise the dot products of consecutive
rows (`np.sum(embeds[:-1] * embeds[1:], axis=1)`). -/
def pairwise_similarities (embeds : List (List ℚ)) : List ℚ :=
  if embeds.length < 2 then []
  else List.zipWith dot embeds.dropLast embeds.tail

/-- `SemanticSplitter.split`, the facade: empty or whitespace-only
text yields `[]`; an empty sentence list yields `[]`; otherwise
similarities are computed from the embeddings (`embedder` abstracts
the sentence-transformer model, `nlp` the spaCy sentencizer) and the
assembly loop runs. -/
def split (nlp : String → List String) (embedder : List String → List (List ℚ))
    (cfg : Config) (text : String) : Option (List String) :=
  if text = "" ∨ pyStrip text = "" then some []
  else
    let sentences := sentencesOf nlp text
    if sentences = [] then some []
    else (assemble cfg (pairwise_similarities (embedder sentences)) sentences).map render

/-- The sentences a chunk contributes beyond its carried overlap
seed. -/
def ownSents (c : Chunk) : List String :=
  c.sents.drop c.seedLen

/-- Concatenation of the chunks' sentences with each chunk's carried
overlap seed removed. -/
def chunkFlat : List Chunk → List String
  | [] => []
  | c :: l => ownSents c ++ chunkFlat l

/-- The seeding relation between a closed chunk `a` and the chunk `b`
opened right after it: `b` begins with exactly the overlap seed taken
from `a`. -/
def seedRel (cfg : Config) (a b : Chunk) : Prop :=
  b.seedLen = (overlapSeed cfg a.sents).length ∧
  b.sents.take b.seedLen = overlapSeed cfg a.sents

/-! ### Basic lemmas about the helpers -/

theorem sumTokens_append (a b : List String) :
    sumTokens (a ++ b) = sumTokens a + sumTokens b := by
  simp [sumTokens]

theorem sumTokens_take_add_drop (l : List String) (n : Nat) :
    sumTokens (l.take n) + sumTokens (l.drop n) = sumTokens l := by
  rw [← sumTokens_append, List.take_append_drop]

theorem pySliceFrom_subset {α : Type} (xs : List α) (i : Int) :
    ∀ x ∈ pySliceFrom xs i, x ∈ xs := by
  intro x hx
  unfold pySliceFrom at hx
  split at hx <;> exact List.drop_subset _ _ hx

theorem overlapSeed_subset (cfg : Config) (sents : List String) :
    ∀ x ∈ overlapSeed cfg sents, x ∈ sents := by
  intro x hx
  unfold overlapSeed at hx
  split at hx
  · exact pySliceFrom_subset _ _ _ hx
  · simp at hx

theorem pyGet_coe_lt (xs : List ℚ) (j : Nat) (h : j < xs.length) :
    pyGet xs (j : Int) = some (xs.get ⟨j, h⟩) := by
  unfold pyGet
  have h0 : ¬ ((j : Int) < 0) := by omega
  simp only [h0, if_false, Int.toNat_natCast, if_pos (by omega : (0:Int) ≤ (j:Int))]
  exact List.get?_eq_get h

theorem same_topic_code_nil (cfg : Config) (sims : List ℚ) (i : Nat) :
    same_topic_code cfg sims i [] = some true := by
  simp [same_topic_code]

theorem same_topic_code_some (cfg : Config) (sims : List ℚ) (i : Nat)
    (cur : List String) (h1 : 1 ≤ i) (h2 : i ≤ sims.length) :
    ∃ b, same_topic_code cfg sims i cur = some b := by
  by_cases hc : cur = []
  · exact ⟨true, by simp [hc, same_topic_code]⟩
  · have hj : ((i : Int) - 1) = ((i - 1 : Nat) : Int) := by omega
    have hlt : i - 1 < sims.length := by omega
    refine ⟨decide (cfg.min_similarity ≤ sims.get ⟨i - 1, hlt⟩), ?_⟩
    simp only [same_topic_code, if_neg hc, hj, pyGet_coe_lt _ _ hlt, Option.map_some']

/-! ### The step lemmas: the three ways one loop iteration can go -/

theorem step_append (cfg : Config) (sims : List ℚ) (i : Nat) (sent : String)
    (st : Chunk × List Chunk)
    (hb : same_topic_code cfg sims i st.1.sents = some true)
    (hf : st.1.count + (estimate_tokens sent : Int) ≤ cfg.max_tokens) :
    step cfg sims i sent st =
      some (⟨st.1.sents ++ [sent], st.1.count + (estimate_tokens sent : Int),
             st.1.seedLen⟩, st.2) := by
  unfold step
  rw [hb]
  simp [decide_eq_true hf]

theorem step_close_of_not_same (cfg : Config) (sims : List ℚ) (i : Nat) (sent : String)
    (st : Chunk × List Chunk)
    (hb : same_topic_code cfg sims i st.1.sents = some false) :
    step cfg sims i sent st =
      some (⟨overlapSeed cfg st.1.sents ++ [sent],
             (sumTokens (overlapSeed cfg st.1.sents) : Int) + (estimate_tokens sent : Int),
             (overlapSeed cfg st.1.sents).length⟩, st.1 :: st.2) := by
  unfold step
  rw [hb]
  simp

theorem step_close_of_not_fit (cfg : Config) (sims : List ℚ) (i : Nat) (sent : String)
    (st : Chunk × List Chunk) (b : Bool)
    (hb : same_topic_code cfg sims i st.1.sents = some b)
    (hf : ¬ (st.1.count + (estimate_tokens sent : Int) ≤ cfg.max_tokens)) :
    step cfg sims i sent st =
      some (⟨overlapSeed cfg st.1.sents ++ [sent],
             (sumTokens (overlapSeed cfg st.1.sents) : Int) + (estimate_tokens sent : Int),
             (overlapSeed cfg st.1.sents).length⟩, st.1 :: st.2) := by
  unfold step
  rw [hb]
  simp [decide_eq_false hf]

/-! ### The loop invariant of the assembly pass -/

/-- Invariant of the assembly loop over the state
`(current chunk, closed chunks in reverse order)` after the sentence
list `processed` has been consumed:

* every chunk's ghost `seedLen` is within bounds;
* every chunk's `count` is the token sum of its sentences;
* every chunk sentence is a processed sentence;
* (for a nonnegative budget) every chunk's own token sum — its
  sentences beyond the carried seed — is within `max_tokens`, unless
  that own part is a single oversize sentence;
* the chunks' own sentences concatenate, in order, to `processed`;
* consecutive chunks are linked by the overlap-seeding relation;
* every chunk except the initial one is nonempty;
* there are at most as many nonempty chunks as processed sentences;
* before any sentence is processed the current chunk is empty. -/
structure Inv (cfg : Config) (processed : List String) (st : Chunk × List Chunk) : Prop where
  seed_le : ∀ c ∈ st.1 :: st.2, c.seedLen ≤ c.sents.length
  count_eq : ∀ c ∈ st.1 :: st.2, c.count = (sumTokens c.sents : Int)
  mem : ∀ c ∈ st.1 :: st.2, ∀ s ∈ c.sents, s ∈ processed
  budget : 0 ≤ cfg.max_tokens → ∀ c ∈ st.1 :: st.2,
    (sumTokens (ownSents c) : Int) ≤ cfg.max_tokens ∨
    ∃ s, ownSents c = [s] ∧ cfg.max_tokens < (estimate_tokens s : Int)
  flat : chunkFlat ((st.1 :: st.2).reverse) = processed
  chain : (st.1 :: st.2).Chain' (fun b a => seedRel cfg a b)
  tail_ne : ∀ c ∈ (st.1 :: st.2).dropLast, c.sents ≠ []
  card : ((st.1 :: st.2).filter (fun c => decide (c.sents ≠ []))).length ≤ processed.length
  empty_start : processed = [] → st.1.sents = []

theorem chunkFlat_append (a b : List Chunk) :
    chunkFlat (a ++ b) = chunkFlat a ++ chunkFlat b := by
  induction a with
  | nil => rfl
  | cons c l ih => simp [chunkFlat, ih]

theorem inv_init (cfg : Config) : Inv cfg [] (⟨[], 0, 0⟩, []) := by
  refine ⟨?_, ?_, ?_, ?_, ?_, ?_, ?_, ?_, ?_⟩
  · intro c hc; simp at hc; subst hc; simp
  · intro c hc; simp at hc; subst hc; simp [sumTokens]
  · intro c hc; simp at hc; subst hc; simp
  · intro hmax c hc; simp at hc; subst hc
    left; simpa [ownSents, sumTokens] using hmax
  · simp [chunkFlat, ownSents]
  · simp
  · intro c hc; simp at hc
  · simp
  · intro _; rfl

theorem inv_append (cfg : Config) (processed : List String) (sent : String)
    (st : Chunk × List Chunk) (h : Inv cfg processed st)
    (hf : st.1.count + (estimate_tokens sent : Int) ≤ cfg.max_tokens) :
    Inv cfg (processed ++ [sent])
      (⟨st.1.sents ++ [sent], st.1.count + (estimate_tokens sent : Int),
        st.1.seedLen⟩, st.2) := by
  obtain ⟨cur, rest⟩ := st
  simp only at hf ⊢
  have hsl : cur.seedLen ≤ cur.sents.length := h.seed_le cur (by simp)
  have hdrop : (cur.sents ++ [sent]).drop cur.seedLen =
      cur.sents.drop cur.seedLen ++ [sent] := by
    rw [List.drop_append_eq_append_drop, Nat.sub_eq_zero_of_le hsl, List.drop]
  have htake : (cur.sents ++ [sent]).take cur.seedLen = cur.sents.take cur.seedLen := by
    rw [List.take_append_eq_append_take, Nat.sub_eq_zero_of_le hsl, List.take,
      List.append_nil]
  refine ⟨?_, ?_, ?_, ?_, ?_, ?_, ?_, ?_, ?_⟩
  · intro c hc
    rcases (List.mem_cons).1 hc with rfl | hc
    · simp only [List.length_append, List.length_cons]
      omega
    · exact h.seed_le c (List.mem_cons_of_mem _ hc)
  · intro c hc
    rcases (List.mem_cons).1 hc with rfl | hc
    · have hcnt := h.count_eq cur (by simp)
      have hs : sumTokens [sent] = estimate_tokens sent := by simp [sumTokens]
      simp only [hcnt, sumTokens_append, hs]
      push_cast
      ring
    · exact h.count_eq c (List.mem_cons_of_mem _ hc)
  · intro c hc
    rcases (List.mem_cons).1 hc with rfl | hc
    · intro s hs
      rcases (List.mem_append).1 hs with hs | hs
      · exact List.mem_append_left _ (h.mem cur (by simp) s hs)
      · simp at hs; subst hs; simp
    · intro s hs
      exact List.mem_append_left _ (h.mem c (List.mem_cons_of_mem _ hc) s hs)
  · intro hmax c hc
    rcases (List.mem_cons).1 hc with rfl | hc
    · left
      have hcnt := h.count_eq cur (by simp)
      have hle : sumTokens ((cur.sents ++ [sent]).drop cur.seedLen) ≤
          sumTokens (cur.sents ++ [sent]) := by
        have := sumTokens_take_add_drop (cur.sents ++ [sent]) cur.seedLen
        omega
      have htot : (sumTokens (cur.sents ++ [sent]) : Int) ≤ cfg.max_tokens := by
        have hs : sumTokens [sent] = estimate_tokens sent := by simp [sumTokens]
        rw [hcnt] at hf
        rw [sumTokens_append, hs]
        push_cast
        omega
      calc (sumTokens (ownSents ⟨cur.sents ++ [sent], cur.count +
              (estimate_tokens sent : Int), cur.seedLen⟩) : Int)
          = (sumTokens ((cur.sents ++ [sent]).drop cur.seedLen) : Int) := rfl
        _ ≤ (sumTokens (cur.sents ++ [sent]) : Int) := by exact_mod_cast hle
        _ ≤ cfg.max_tokens := htot
    · exact h.budget hmax c (List.mem_cons_of_mem _ hc)
  · simp only [List.reverse_cons, chunkFlat_append, chunkFlat]
    have hflat := h.flat
    simp only [List.reverse_cons, chunkFlat_append, chunkFlat] at hflat
    simp only [ownSents] at hflat ⊢
    simp only [hdrop, List.append_nil] at *
    rw [← List.append_assoc, hflat]
  · have hch := h.chain
    rcases rest with _ | ⟨r, rs⟩
    · simp
    · rw [List.chain'_cons] at hch ⊢
      refine ⟨?_, hch.2⟩
      obtain ⟨h1, h2⟩ := hch.1
      exact ⟨h1, by simpa [h1] using htake ▸ (h1 ▸ h2)⟩
  · intro c hc
    rcases rest with _ | ⟨r, rs⟩
    · simp at hc
    · have : (⟨cur.sents ++ [sent], cur.count + (estimate_tokens sent : Int),
          cur.seedLen⟩ : Chunk) :: r :: rs =
          [⟨cur.sents ++ [sent], cur.count + (estimate_tokens sent : Int),
            cur.seedLen⟩] ++ r :: rs := rfl
      rcases (List.mem_cons).1 (by simpa [List.dropLast] using hc) with rfl | hc2
      · simp
      · exact h.tail_ne c (by simpa [List.dropLast] using List.mem_cons_of_mem cur hc2)
  · have hcard := h.card
    have hmono : ((rest.filter (fun c => decide (c.sents ≠ []))).length) ≤
        (((cur :: rest).filter (fun c => decide (c.sents ≠ []))).length) := by
      simp only [List.filter_cons]
      split <;> simp
    simp only [List.filter_cons, decide_eq_true_eq] at hcard ⊢
    have hne : cur.sents ++ [sent] ≠ [] := by simp
    rw [if_pos hne]
    simp only [List.length_cons, List.length_append, List.length_cons,
      List.length_nil]
    split at hcard <;> simp_all <;> omega
  · intro habs
    exact absurd habs (by simp)
theorem inv_close (cfg : Config) (processed : List String) (sent : String)
    (st : Chunk × List Chunk) (h : Inv cfg processed st) :
    Inv cfg (processed ++ [sent])
      (⟨overlapSeed cfg st.1.sents ++ [sent],
        (sumTokens (overlapSeed cfg st.1.sents) : Int) + (estimate_tokens sent : Int),
        (overlapSeed cfg st.1.sents).length⟩, st.1 :: st.2) := by
  obtain ⟨cur, rest⟩ := st
  simp only at h ⊢
  set ov := overlapSeed cfg cur.sents
  have hdrop : (ov ++ [sent]).drop ov.length = [sent] := List.drop_left _ _
  have htake : (ov ++ [sent]).take ov.length = ov := List.take_left _ _
  refine ⟨?_, ?_, ?_, ?_, ?_, ?_, ?_, ?_, ?_⟩
  · intro c hc
    rcases (List.mem_cons).1 hc with rfl | hc
    · simp
    · exact h.seed_le c hc
  · intro c hc
    rcases (List.mem_cons).1 hc with rfl | hc
    · have hs : sumTokens [sent] = estimate_tokens sent := by simp [sumTokens]
      simp only [sumTokens_append, hs]
      push_cast
      ring
    · exact h.count_eq c hc
  · intro c hc
    rcases (List.mem_cons).1 hc with rfl | hc
    · intro s hs
      rcases (List.mem_append).1 hs with hs | hs
      · exact List.mem_append_left _
          (h.mem cur (by simp) s (overlapSeed_subset cfg cur.sents s hs))
      · simp at hs; subst hs; simp
    · intro s hs
      exact List.mem_append_left _ (h.mem c hc s hs)
  · intro hmax c hc
    rcases (List.mem_cons).1 hc with rfl | hc
    · have hown : ownSents ⟨ov ++ [sent], (sumTokens ov : Int) +
          (estimate_tokens sent : Int), ov.length⟩ = [sent] := hdrop
      by_cases ht : (estimate_tokens sent : Int) ≤ cfg.max_tokens
      · left
        rw [hown]
        have hs : sumTokens [sent] = estimate_tokens sent := by simp [sumTokens]
        rw [hs]
        exact ht
      · right
        exact ⟨sent, hown, by omega⟩
    · exact h.budget hmax c hc
  · simp only [List.reverse_cons, chunkFlat_append, chunkFlat]
    have hflat := h.flat
    simp only [List.reverse_cons, chunkFlat_append, chunkFlat] at hflat
    simp only [List.append_nil] at *
    have hown : ownSents ⟨ov ++ [sent], (sumTokens ov : Int) +
        (estimate_tokens sent : Int), ov.length⟩ = [sent] := hdrop
    rw [hown, hflat]
  · rw [List.chain'_cons]
    exact ⟨⟨rfl, htake⟩, h.chain⟩
  · intro c hc
    have hsplit : (⟨ov ++ [sent], (sumTokens ov : Int) + (estimate_tokens sent : Int),
        ov.length⟩ : Chunk) :: cur :: rest =
        [(⟨ov ++ [sent], (sumTokens ov : Int) + (estimate_tokens sent : Int),
          ov.length⟩ : Chunk)] ++ cur :: rest := rfl
    rw [hsplit, List.dropLast_append_of_ne_nil _ (by simp)] at hc
    rcases (List.mem_append).1 hc with hc | hc
    · simp at hc; subst hc; simp
    · exact h.tail_ne c hc
  · have hcard := h.card
    simp only [List.filter_cons, decide_eq_true_eq] at hcard ⊢
    have hne : ov ++ [sent] ≠ [] := by simp
    rw [if_pos hne]
    simp only [List.length_cons, List.length_append, List.length_nil]
    split at hcard <;> split <;> simp_all <;> omega
  · intro habs
    exact absurd habs (by simp)

/-- Running the loop over the remaining sentences preserves the
invariant and never raises, provided the similarity array covers every
index the loop will read (`sims[i-1]` for each sentence index
`i ≥ 1`). -/
theorem assembleAux_inv (cfg : Config) (sims : List ℚ) :
    ∀ (todo processed : List String) (st : Chunk × List Chunk),
      Inv cfg processed st →
      processed.length + todo.length ≤ sims.length + 1 →
      ∃ st2, assembleAux cfg sims processed.length todo st = some st2 ∧
        Inv cfg (processed ++ todo) st2 := by
  intro todo
  induction todo with
  | nil =>
    intro processed st h _
    exact ⟨st, rfl, by simpa using h⟩
  | cons sent todo ih =>
    intro processed st h hlen
    obtain ⟨b, hb⟩ : ∃ b, same_topic_code cfg sims processed.length st.1.sents = some b := by
      by_cases hc : st.1.sents = []
      · exact ⟨true, by rw [hc]; exact same_topic_code_nil cfg sims processed.length⟩
      · have h1 : 1 ≤ processed.length := by
          rcases processed with _ | ⟨p, ps⟩
          · exact absurd (h.empty_start rfl) hc
          · simp
        have h2 : processed.length ≤ sims.length := by
          simp only [List.length_cons] at hlen
          omega
        exact same_topic_code_some cfg sims processed.length st.1.sents h1 h2
    have hlen2 : (processed ++ [sent]).length + todo.length ≤ sims.length + 1 := by
      simp only [List.length_append, List.length_cons, List.length_nil] at hlen ⊢
      omega
    rcases b with _ | _
    · -- topic shift: close the chunk
      have hstep := step_close_of_not_same cfg sims processed.length sent st hb
      have hinv := inv_close cfg processed sent st h
      obtain ⟨st2, h1, h2⟩ := ih (processed ++ [sent]) _ hinv hlen2
      refine ⟨st2, ?_, by simpa using h2⟩
      simp only [assembleAux, hstep]
      simpa [List.length_append] using h1
    · by_cases hf : st.1.count + (estimate_tokens sent : Int) ≤ cfg.max_tokens
      · -- continuation: append to the current chunk
        have hstep := step_append cfg sims processed.length sent st hb hf
        have hinv := inv_append cfg processed sent st h hf
        obtain ⟨st2, h1, h2⟩ := ih (processed ++ [sent]) _ hinv hlen2
        refine ⟨st2, ?_, by simpa using h2⟩
        simp only [assembleAux, hstep]
        simpa [List.length_append] using h1
      · -- budget exhausted: close the chunk
        have hstep := step_close_of_not_fit cfg sims processed.length sent st true hb hf
        have hinv := inv_close cfg processed sent st h
        obtain ⟨st2, h1, h2⟩ := ih (processed ++ [sent]) _ hinv hlen2
        refine ⟨st2, ?_, by simpa using h2⟩
        simp only [assembleAux, hstep]
        simpa [List.length_append] using h1

theorem reverse_tail_eq {α : Type} (l : List α) : l.reverse.tail = l.dropLast.reverse := by
  rcases eq_or_ne l [] with rfl | h
  · rfl
  · conv_lhs => rw [← List.dropLast_append_getLast h]
    rw [List.reverse_append]
    simp

/-- Everything the invariant yields about the final chunk list of
`assemble`, in first-appearance order. -/
structure AsmOut (cfg : Config) (sents : List String) (chunks : List Chunk) : Prop where
  ne : chunks ≠ []
  flat : chunkFlat chunks = sents
  seed_le : ∀ c ∈ chunks, c.seedLen ≤ c.sents.length
  count_eq : ∀ c ∈ chunks, c.count = (sumTokens c.sents : Int)
  mem : ∀ c ∈ chunks, ∀ s ∈ c.sents, s ∈ sents
  budget : 0 ≤ cfg.max_tokens → ∀ c ∈ chunks,
    (sumTokens (ownSents c) : Int) ≤ cfg.max_tokens ∨
    ∃ s, ownSents c = [s] ∧ cfg.max_tokens < (estimate_tokens s : Int)
  chain : chunks.Chain' (seedRel cfg)
  tail_ne : ∀ c ∈ chunks.tail, c.sents ≠ []
  card : (chunks.filter (fun c => decide (c.sents ≠ []))).length ≤ sents.length

/-- Master lemma: whenever the similarity list covers all `n - 1`
adjacent pairs (as the facade always arranges), the assembly pass
returns successfully and its output satisfies every invariant. -/
theorem assemble_ok (cfg : Config) (sims : List ℚ) (sents : List String)
    (hlen : sents.length ≤ sims.length + 1) :
    ∃ chunks, assemble cfg sims sents = some chunks ∧ AsmOut cfg sents chunks := by
  obtain ⟨st2, h1, h2⟩ := assembleAux_inv cfg sims sents [] (⟨[], 0, 0⟩, [])
    (inv_init cfg) (by simpa using hlen)
  refine ⟨(st2.1 :: st2.2).reverse, ?_, ?_⟩
  · simp only [assemble]
    simp only [List.length_nil] at h1
    rw [h1]
    rfl
  have hmem : ∀ c, c ∈ (st2.1 :: st2.2).reverse ↔ c ∈ st2.1 :: st2.2 := by
    intro c; exact List.mem_reverse
  simp only [List.nil_append] at h2
  refine ⟨by simp, h2.flat, ?_, ?_, ?_, ?_, ?_, ?_, ?_⟩
  · intro c hc; exact h2.seed_le c ((hmem c).1 hc)
  · intro c hc; exact h2.count_eq c ((hmem c).1 hc)
  · intro c hc; exact h2.mem c ((hmem c).1 hc)
  · intro hmax c hc; exact h2.budget hmax c ((hmem c).1 hc)
  · exact (List.chain'_reverse).2 h2.chain
  · intro c hc
    rw [reverse_tail_eq] at hc
    exact h2.tail_ne c (List.mem_reverse.1 hc)
  · calc ((st2.1 :: st2.2).reverse.filter (fun c => decide (c.sents ≠ []))).length
        = (((st2.1 :: st2.2).filter (fun c => decide (c.sents ≠ []))).reverse).length := by
          rw [List.filter_reverse]
      _ = (((st2.1 :: st2.2).filter (fun c => decide (c.sents ≠ []))).length) := by
          rw [List.length_reverse]
      _ ≤ sents.length := h2.card

/-- For a nonnegative `overlap` the seed slice
`chunks[-1][-overlap:] if overlap else []` is the trailing part of the
closed chunk past index `length - overlap`. -/
theorem overlapSeed_of_nonneg (cfg : Config) (hov : 0 ≤ cfg.overlap) (xs : List String) :
    overlapSeed cfg xs = xs.drop (xs.length - cfg.overlap.toNat) := by
  unfold overlapSeed pySliceFrom
  by_cases h0 : cfg.overlap = 0
  · simp [h0, List.drop_length]
  · rw [if_pos h0]
    have hneg : (-cfg.overlap) < 0 := by omega
    rw [if_pos hneg]
    have : ((xs.length : Int) + -cfg.overlap).toNat = xs.length - cfg.overlap.toNat := by
      omega
    rw [this]

/-- The seed for a nonnegative `overlap` has exactly
`min overlap (length of the closed chunk)` sentences. -/
theorem overlapSeed_length_of_nonneg (cfg : Config) (hov : 0 ≤ cfg.overlap)
    (xs : List String) :
    (overlapSeed cfg xs).length = min cfg.overlap.toNat xs.length := by
  rw [overlapSeed_of_nonneg cfg hov xs, List.length_drop]
  omega

/-- For a negative `overlap = -k` the slice `chunks[-1][-overlap:]`
becomes `chunks[-1][k:]`: everything except the first `k`
sentences. -/
theorem overlapSeed_of_neg (cfg : Config) (k : Nat) (hk : 0 < k)
    (hov : cfg.overlap = -(k : Int)) (xs : List String) :
    overlapSeed cfg xs = xs.drop k := by
  unfold overlapSeed pySliceFrom
  have h0 : cfg.overlap ≠ 0 := by omega
  rw [if_pos h0, hov]
  have hpos : ¬ (-(-(k : Int)) < 0) := by omega
  rw [if_neg hpos]
  have : (-(-(k : Int))).toNat = k := by omega
  rw [this]

/-- If every chunk after the first is nonempty, the rendering filter
keeps either the whole list or everything but its head. -/
theorem filter_shape (l : List Chunk) (h : ∀ c ∈ l.tail, c.sents ≠ []) :
    l.filter (fun c => decide (c.sents ≠ [])) = l ∨
    l.filter (fun c => decide (c.sents ≠ [])) = l.tail := by
  rcases l with _ | ⟨a, t⟩
  · left; rfl
  · have ht : t.filter (fun c => decide (c.sents ≠ [])) = t :=
      List.filter_eq_self.mpr (fun c hc => decide_eq_true (h c hc))
    by_cases ha : a.sents = []
    · right
      rw [List.filter_cons, if_neg (by simp [ha]), ht]
      rfl
    · left
      rw [List.filter_cons, if_pos (by simp [ha]), ht]

/-- An empty chunk contributes nothing to `chunkFlat`, so filtering
empty chunks away does not change the reconstruction. -/
theorem chunkFlat_filter (l : List Chunk) (h : ∀ c ∈ l.tail, c.sents ≠ []) :
    chunkFlat (l.filter (fun c => decide (c.sents ≠ []))) = chunkFlat l := by
  rcases filter_shape l h with hf | hf
  · rw [hf]
  · rw [hf]
    rcases l with _ | ⟨a, t⟩
    · rfl
    · by_cases ha : a.sents = []
      · simp [chunkFlat, ownSents, ha]
      · have ht : t.filter (fun c => decide (c.sents ≠ [])) = t :=
          List.filter_eq_self.mpr (fun c hc => decide_eq_true (h c hc))
        rw [List.filter_cons, if_pos (by simp [ha]), ht] at hf
        simp only [List.tail_cons] at hf
        exact absurd hf (List.cons_ne_self a t)

/-! ### Claim C1 -/

theorem render_cons_ne (c : Chunk) (l : List Chunk) (h : c.sents ≠ []) :
    render (c :: l) = pyStrip (String.intercalate " " c.sents) :: render l := by
  simp only [render, List.filter_cons]
  rw [if_pos (show decide (c.sents ≠ []) = true by simp [h])]
  rfl

theorem render_cons_nil (c : Chunk) (l : List Chunk) (h : c.sents = []) :
    render (c :: l) = render l := by
  simp only [render, List.filter_cons]
  rw [if_neg (show ¬ decide (c.sents ≠ []) = true by simp [h])]

theorem render_singletons (l : List String) (h : ∀ s ∈ l, pyStrip s = s) :
    render (l.map (fun s => (⟨[s], (estimate_tokens s : Int), 0⟩ : Chunk))) = l := by
  induction l with
  | nil => rfl
  | cons s t ih =>
    rw [List.map_cons, render_cons_ne _ _ (by simp)]
    rw [ih (fun x hx => h x (List.mem_cons_of_mem s hx))]
    have : String.intercalate " " [s] = s := rfl
    rw [this, h s (by simp)]

/-- With a non-positive budget and zero overlap, once the current
chunk is nonempty every remaining positive-estimate sentence fails the
budget test and opens its own chunk. -/
theorem degenerate_aux (cfg : Config) (sims : List ℚ)
    (hmax : cfg.max_tokens ≤ 0) (hov : cfg.overlap = 0) :
    ∀ (todo : List String) (i : Nat) (cur : Chunk) (rest : List Chunk),
      (∀ s ∈ todo, 0 < estimate_tokens s) →
      cur.sents ≠ [] → 0 ≤ cur.count →
      1 ≤ i → i + todo.length ≤ sims.length + 1 →
      ∃ st2, assembleAux cfg sims i todo (cur, rest) = some st2 ∧
        (st2.1 :: st2.2).reverse =
          (cur :: rest).reverse ++
            todo.map (fun s => ⟨[s], (estimate_tokens s : Int), 0⟩) := by
  intro todo
  induction todo with
  | nil =>
    intro i cur rest _ _ _ _ _
    exact ⟨(cur, rest), rfl, by simp⟩
  | cons sent todo ih =>
    intro i cur rest htok hne hcnt hi hlen
    obtain ⟨b, hb⟩ := same_topic_code_some cfg sims i cur.sents hi
      (by simp only [List.length_cons] at hlen; omega)
    have hf : ¬ ((cur, rest).1.count + (estimate_tokens sent : Int) ≤ cfg.max_tokens) := by
      have := htok sent (by simp)
      simp only
      omega
    have hstep := step_close_of_not_fit cfg sims i sent (cur, rest) b hb hf
    have hstep2 : step cfg sims i sent (cur, rest) =
        some (⟨[sent], (estimate_tokens sent : Int), 0⟩, cur :: rest) := by
      rw [hstep]
      simp [overlapSeed, hov, sumTokens]
    obtain ⟨st2, h1, h2⟩ := ih (i + 1) ⟨[sent], (estimate_tokens sent : Int), 0⟩
      (cur :: rest) (fun s hs => htok s (List.mem_cons_of_mem sent hs)) (by simp)
      (by positivity) (by omega)
      (by simp only [List.length_cons] at hlen ⊢; omega)
    refine ⟨st2, ?_, ?_⟩
    · simp only [assembleAux, hstep2]
      exact h1
    · rw [h2]
      simp [List.append_assoc]

/-- Claim C1, as stated, is false of the code: no configuration
validation exists.  With `max_tokens = 0` (and two one-token
sentences) the split runs to completion with no error and returns
one-sentence chunks instead of being rejected as an invalid
configuration. -/
theorem nonpositive_max_tokens_runs_silently :
    (assemble ⟨0, 0, 0⟩ [1] ["A.", "B."]).map render = some ["A.", "B."] := by decide

/-- Claim C1, amended: the configuration is never validated.  For any
non-positive `max_tokens` (zero overlap, positive-estimate trimmed
sentences) the split silently runs and degenerates to exactly one
chunk per sentence. -/
theorem nonpositive_max_tokens_degenerates (cfg : Config) (sims : List ℚ)
    (sents : List String) (hmax : cfg.max_tokens ≤ 0) (hov : cfg.overlap = 0)
    (hsents : ∀ s ∈ sents, 0 < estimate_tokens s ∧ pyStrip s = s)
    (hlen : sents.length ≤ sims.length + 1) :
    (assemble cfg sims sents).map render = some sents := by
  rcases sents with _ | ⟨s0, rest⟩
  · simp [assemble, assembleAux, render]
  · have hb : same_topic_code cfg sims 0 ((⟨[], 0, 0⟩ : Chunk), ([] : List Chunk)).1.sents =
        some true := same_topic_code_nil cfg sims 0
    have hf : ¬ (((⟨[], 0, 0⟩ : Chunk), ([] : List Chunk)).1.count +
        (estimate_tokens s0 : Int) ≤ cfg.max_tokens) := by
      have := (hsents s0 (by simp)).1
      simp only
      omega
    have hstep := step_close_of_not_fit cfg sims 0 s0 (⟨[], 0, 0⟩, []) true hb hf
    have hstep2 : step cfg sims 0 s0 (⟨[], 0, 0⟩, []) =
        some (⟨[s0], (estimate_tokens s0 : Int), 0⟩, [⟨[], 0, 0⟩]) := by
      rw [hstep]
      simp [overlapSeed, hov, sumTokens]
    obtain ⟨st2, h1, h2⟩ := degenerate_aux cfg sims hmax hov rest 1
      ⟨[s0], (estimate_tokens s0 : Int), 0⟩ [⟨[], 0, 0⟩]
      (fun s hs => (hsents s (List.mem_cons_of_mem s0 hs)).1) (by simp) (by positivity)
      (le_refl 1) (by simp only [List.length_cons] at hlen; omega)
    have hasm : assemble cfg sims (s0 :: rest) = some ((st2.1 :: st2.2).reverse) := by
      simp only [assemble, assembleAux, hstep2]
      rw [h1]
      rfl
    rw [hasm, h2, Option.map_some']
    have hcons : ((⟨[s0], (estimate_tokens s0 : Int), 0⟩ : Chunk) ::
        [(⟨[], 0, 0⟩ : Chunk)]).reverse ++
        rest.map (fun s => ⟨[s], (estimate_tokens s : Int), 0⟩) =
        (⟨[], 0, 0⟩ : Chunk) ::
          (s0 :: rest).map (fun s => ⟨[s], (estimate_tokens s : Int), 0⟩) := by
      simp
    rw [hcons, render_cons_nil _ _ rfl,
      render_singletons _ (fun s hs => (hsents s hs).2)]

/-- Witness for the amended C1 at a concrete degenerate
configuration. -/
theorem nonpositive_max_tokens_degenerates_witness :
    (assemble ⟨-1, 0, 0⟩ [0] ["Hi.", "Bye."]).map render = some ["Hi.", "Bye."] :=
  nonpositive_max_tokens_degenerates ⟨-1, 0, 0⟩ [0] ["Hi.", "Bye."] (by decide)
    rfl (by decide) (by decide)

/-! ### Claim C2 -/

/-- Claim C2, as stated, is false of the code: with `max_tokens = 3`,
`overlap = 1` and sentences of estimate 1 and 5, the second produced
chunk carries the overlap sentence "a" before the oversize sentence,
so its own token sum (5) exceeds `max_tokens` while the chunk is not a
single sentence. -/
theorem budget_exception_not_single_sentence :
    assemble ⟨3, 0, 1⟩ [1] ["a", "b c d e f"] =
      some [⟨["a"], 1, 0⟩, ⟨["a", "b c d e f"], 6, 1⟩] ∧
    ¬ ((sumTokens (ownSents ⟨["a", "b c d e f"], 6, 1⟩) : Int) ≤ 3 ∨
       (⟨["a", "b c d e f"], 6, 1⟩ : Chunk).sents.length = 1) := by decide

/-- Claim C2, amended: for every well-formed configuration, each
chunk's own token sum (excluding its carried overlap prefix) is at
most `max_tokens`, unless the chunk *beyond its carried overlap
prefix* is a single sentence whose own estimate exceeds
`max_tokens`. -/
theorem chunk_own_budget_respected (cfg : Config) (sims : List ℚ) (sents : List String)
    (hmax : 0 < cfg.max_tokens) (hs0 : 0 ≤ cfg.min_similarity)
    (hs1 : cfg.min_similarity ≤ 1) (hov : 0 ≤ cfg.overlap)
    (hlen : sents.length ≤ sims.length + 1) :
    ∃ chunks, assemble cfg sims sents = some chunks ∧
      ∀ c ∈ chunks, (sumTokens (ownSents c) : Int) ≤ cfg.max_tokens ∨
        ∃ s, ownSents c = [s] ∧ cfg.max_tokens < (estimate_tokens s : Int) := by
  obtain ⟨chunks, h1, h2⟩ := assemble_ok cfg sims sents hlen
  exact ⟨chunks, h1, h2.budget (by omega)⟩

/-- Witness for the amended C2 at the counterexample's own input: the
oversize chunk falls under the amended exception. -/
theorem chunk_own_budget_respected_witness :
    ∃ chunks, assemble ⟨3, 0, 1⟩ [1] ["a", "b c d e f"] = some chunks ∧
      ∀ c ∈ chunks, (sumTokens (ownSents c) : Int) ≤ 3 ∨
        ∃ s, ownSents c = [s] ∧ 3 < (estimate_tokens s : Int) :=
  chunk_own_budget_respected ⟨3, 0, 1⟩ [1] ["a", "b c d e f"] (by decide) (by decide)
    (by decide) (by decide) (by decide)

/-! ### Claim C3 -/

/-- Claim C3, as stated, is false of the code: there is no explicit
`i == 0` guard; only Python's short-circuit `or` protects the lookup.
Evaluating the same boolean expression strictly at `i = 0` performs
the `sims[-1]` lookup: with a single-sentence input (`sims = []`) that
raises `IndexError`, and with a nonempty array it wraps around and
reads the *last* similarity. -/
theorem same_topic_guard_is_short_circuit :
    same_topic_code ⟨200, 0, 0⟩ [] 0 [] = some true ∧
    same_topic_strict ⟨200, 0, 0⟩ [] 0 [] = none ∧
    pyGet [(1 : ℚ)] (-1) = some 1 := by decide

/-- Claim C3, amended: at `i = 0` the current chunk is empty, the
similarity array is never consulted, and the treatment of sentence 0
is independent of the similarity values — but this is guaranteed by
short-circuit evaluation of the empty-chunk test, not by an explicit
`i == 0` guard. -/
theorem first_sentence_ignores_similarities (cfg : Config) (sims sims2 : List ℚ)
    (sent : String) :
    step cfg sims 0 sent (⟨[], 0, 0⟩, []) = step cfg sims2 0 sent (⟨[], 0, 0⟩, []) ∧
    same_topic_code cfg sims 0 [] = some true := by
  have h1 : same_topic_code cfg sims 0
      ((⟨[], 0, 0⟩ : Chunk), ([] : List Chunk)).1.sents = some true :=
    same_topic_code_nil cfg sims 0
  have h2 : same_topic_code cfg sims2 0
      ((⟨[], 0, 0⟩ : Chunk), ([] : List Chunk)).1.sents = some true :=
    same_topic_code_nil cfg sims2 0
  constructor
  · unfold step
    rw [h1, h2]
  · exact same_topic_code_nil cfg sims 0

/-! ### Claim C4 -/

/-- Claim C4: for `overlap ≥ 0`, each newly opened chunk is seeded
with exactly `min overlap (length of the closed chunk)` trailing
sentences of the closed chunk, nothing ever raises, and the rendering
filter only ever drops the initial chunk, so this also holds between
consecutive output chunks. -/
theorem overlap_seed_min_bound (cfg : Config) (sims : List ℚ) (sents : List String)
    (hov : 0 ≤ cfg.overlap) (hlen : sents.length ≤ sims.length + 1) :
    ∃ chunks, assemble cfg sims sents = some chunks ∧
      (chunks.filter (fun c => decide (c.sents ≠ [])) = chunks ∨
       chunks.filter (fun c => decide (c.sents ≠ [])) = chunks.tail) ∧
      ∀ (k : ℕ) (h : k + 1 < chunks.length),
        (chunks.get ⟨k + 1, h⟩).seedLen =
          min cfg.overlap.toNat (chunks.get ⟨k, by omega⟩).sents.length ∧
        (chunks.get ⟨k + 1, h⟩).sents.take (chunks.get ⟨k + 1, h⟩).seedLen =
          (chunks.get ⟨k, by omega⟩).sents.drop
            ((chunks.get ⟨k, by omega⟩).sents.length - cfg.overlap.toNat) := by
  obtain ⟨chunks, h1, h2⟩ := assemble_ok cfg sims sents hlen
  refine ⟨chunks, h1, filter_shape chunks h2.tail_ne, ?_⟩
  intro k h
  have hchain := (List.chain'_iff_get).1 h2.chain k (by omega)
  constructor
  · rw [hchain.1, overlapSeed_length_of_nonneg cfg hov]
  · rw [hchain.2, overlapSeed_of_nonneg cfg hov]

/-- Witness for C4 on a concrete overlapping run. -/
theorem overlap_seed_min_bound_witness :
    ∃ chunks, assemble ⟨1, 0, 1⟩ [0, 0] ["A.", "B.", "C."] = some chunks ∧
      (chunks.filter (fun c => decide (c.sents ≠ [])) = chunks ∨
       chunks.filter (fun c => decide (c.sents ≠ [])) = chunks.tail) ∧
      ∀ (k : ℕ) (h : k + 1 < chunks.length),
        (chunks.get ⟨k + 1, h⟩).seedLen =
          min (1 : Int).toNat (chunks.get ⟨k, by omega⟩).sents.length ∧
        (chunks.get ⟨k + 1, h⟩).sents.take (chunks.get ⟨k + 1, h⟩).seedLen =
          (chunks.get ⟨k, by omega⟩).sents.drop
            ((chunks.get ⟨k, by omega⟩).sents.length - (1 : Int).toNat) :=
  overlap_seed_min_bound ⟨1, 0, 1⟩ [0, 0] ["A.", "B.", "C."] (by decide) (by decide)

/-! ### Claim C8 -/

/-- Claim C8: concatenating the output chunks' sentences with each
chunk's carried overlap prefix removed reconstructs exactly the
segmented sentence sequence, in order. -/
theorem chunks_reconstruct_sentences (cfg : Config) (sims : List ℚ) (sents : List String)
    (hlen : sents.length ≤ sims.length + 1) :
    ∃ chunks, assemble cfg sims sents = some chunks ∧
      chunkFlat (chunks.filter (fun c => decide (c.sents ≠ []))) = sents := by
  obtain ⟨chunks, h1, h2⟩ := assemble_ok cfg sims sents hlen
  exact ⟨chunks, h1, by rw [chunkFlat_filter chunks h2.tail_ne, h2.flat]⟩

/-- Witness for C8 on a concrete run with overlap. -/
theorem chunks_reconstruct_sentences_witness :
    ∃ chunks, assemble ⟨1, 0, 1⟩ [0, 0] ["A.", "B.", "C."] = some chunks ∧
      chunkFlat (chunks.filter (fun c => decide (c.sents ≠ []))) = ["A.", "B.", "C."] :=
  chunks_reconstruct_sentences ⟨1, 0, 1⟩ [0, 0] ["A.", "B.", "C."] (by decide)

/-! ### Claim C9 -/

/-- Claim C9: the output has at most one chunk per segmented sentence;
every chunk after the initial one is nonempty (and the initial chunk,
if empty, is filtered out by the rendering), and every rendered chunk
is the stripped space-join of a nonempty list of input sentences. -/
theorem chunk_count_and_nonempty (cfg : Config) (sims : List ℚ) (sents : List String)
    (hlen : sents.length ≤ sims.length + 1)
    (hsents : ∀ s ∈ sents, s ≠ "" ∧ pyStrip s = s) :
    ∃ chunks, assemble cfg sims sents = some chunks ∧
      (render chunks).length ≤ sents.length ∧
      (∀ c ∈ chunks.tail, c.sents ≠ []) ∧
      ∀ t ∈ render chunks, ∃ c ∈ chunks, c.sents ≠ [] ∧
        (∀ s ∈ c.sents, s ∈ sents) ∧ t = pyStrip (String.intercalate " " c.sents) := by
  obtain ⟨chunks, h1, h2⟩ := assemble_ok cfg sims sents hlen
  refine ⟨chunks, h1, ?_, h2.tail_ne, ?_⟩
  · have hr : (render chunks).length =
        (chunks.filter (fun c => decide (c.sents ≠ []))).length := by
      simp [render]
    rw [hr]
    exact h2.card
  · intro t ht
    simp only [render, List.mem_map] at ht
    obtain ⟨c, hc, rfl⟩ := ht
    have hcm := List.mem_filter.1 hc
    exact ⟨c, hcm.1, by simpa using hcm.2, h2.mem c hcm.1, rfl⟩

/-- Witness for C9 on a concrete run. -/
theorem chunk_count_and_nonempty_witness :
    ∃ chunks, assemble ⟨1, 0, 1⟩ [0, 0] ["A.", "B.", "C."] = some chunks ∧
      (render chunks).length ≤ (["A.", "B.", "C."] : List String).length ∧
      (∀ c ∈ chunks.tail, c.sents ≠ []) ∧
      ∀ t ∈ render chunks, ∃ c ∈ chunks, c.sents ≠ [] ∧
        (∀ s ∈ c.sents, s ∈ (["A.", "B.", "C."] : List String)) ∧
        t = pyStrip (String.intercalate " " c.sents) :=
  chunk_count_and_nonempty ⟨1, 0, 1⟩ [0, 0] ["A.", "B.", "C."] (by decide) (by decide)

/-! ### Claim C10 -/

/-- Claim C10: a negative `overlap = -k` is accepted without
validation and never raises; each newly opened chunk is seeded with
all sentences of the closed chunk except its first `k` (the slice
`[-overlap:]` becomes `[k:]`). -/
theorem negative_overlap_drops_head (cfg : Config) (sims : List ℚ) (sents : List String)
    (k : ℕ) (hk : 0 < k) (hov : cfg.overlap = -(k : Int))
    (hlen : sents.length ≤ sims.length + 1) :
    ∃ chunks, assemble cfg sims sents = some chunks ∧
      ∀ (j : ℕ) (h : j + 1 < chunks.length),
        (chunks.get ⟨j + 1, h⟩).sents.take (chunks.get ⟨j + 1, h⟩).seedLen =
          (chunks.get ⟨j, by omega⟩).sents.drop k := by
  obtain ⟨chunks, h1, h2⟩ := assemble_ok cfg sims sents hlen
  refine ⟨chunks, h1, ?_⟩
  intro j h
  have hchain := (List.chain'_iff_get).1 h2.chain j (by omega)
  rw [hchain.2, overlapSeed_of_neg cfg k hk hov]

/-- Witness for C10 with `overlap = -1`. -/
theorem negative_overlap_drops_head_witness :
    ∃ chunks, assemble ⟨1, 0, -1⟩ [0, 0] ["A.", "B.", "C."] = some chunks ∧
      ∀ (j : ℕ) (h : j + 1 < chunks.length),
        (chunks.get ⟨j + 1, h⟩).sents.take (chunks.get ⟨j + 1, h⟩).seedLen =
          (chunks.get ⟨j, by omega⟩).sents.drop 1 :=
  negative_overlap_drops_head ⟨1, 0, -1⟩ [0, 0] ["A.", "B.", "C."] 1 (by decide)
    (by decide) (by decide)

/-! ### Claim C7 -/

theorem pyStrip_of_ws (s : String) (h : ∀ c ∈ s.data, isPyWhitespace c = true) :
    pyStrip s = "" := by
  unfold pyStrip pyStripChars
  have h1 : s.data.dropWhile isPyWhitespace = [] := List.dropWhile_eq_nil_iff.2 h
  rw [h1]
  rfl

/-- Claim C7: an empty or whitespace-only input — and likewise any
input whose segmentation yields no sentences — makes `split` return
`[]` with no error, under every configuration and every segmenter and
embedding provider. -/
theorem empty_input_yields_empty (nlp : String → List String)
    (embedder : List String → List (List ℚ)) (cfg : Config) (text : String)
    (h : (∀ c ∈ text.data, isPyWhitespace c = true) ∨ sentencesOf nlp text = []) :
    split nlp embedder cfg text = some [] := by
  unfold split
  rcases h with hws | hseg
  · rw [if_pos (Or.inr (pyStrip_of_ws text hws))]
  · by_cases he : text = "" ∨ pyStrip text = ""
    · rw [if_pos he]
    · rw [if_neg he]
      simp [hseg]

/-- Witness for C7 on a whitespace-only input under a segmenter that
would otherwise produce sentences. -/
theorem empty_input_yields_empty_witness :
    split (fun _ => ["x"]) (fun _ => []) ⟨200, 0, 0⟩ " " = some [] :=
  empty_input_yields_empty (fun _ => ["x"]) (fun _ => []) ⟨200, 0, 0⟩ " "
    (Or.inl (by decide))

/-! ### Claim C5 -/

/-- Claim C5: on the three one-token sentences with `max_tokens = 1`,
`min_similarity = 0` and `overlap = 1`, the budget alone forces every
boundary, so the output is `["A.", "A. B.", "B. C."]` whatever the two
adjacent similarity values are. -/
theorem three_sentences_budget_one_overlap_one (s0 s1 : ℚ) :
    (assemble ⟨1, 0, 1⟩ [s0, s1] ["A.", "B.", "C."]).map render =
      some ["A.", "A. B.", "B. C."] := by
  have h0 : step ⟨1, 0, 1⟩ [s0, s1] 0 "A." (⟨[], 0, 0⟩, []) =
      some (⟨["A."], 1, 0⟩, []) := rfl
  have hb1 : same_topic_code ⟨1, 0, 1⟩ [s0, s1] 1 ["A."] =
      some (decide ((0 : ℚ) ≤ s0)) := rfl
  have h1 := step_close_of_not_fit ⟨1, 0, 1⟩ [s0, s1] 1 "B." (⟨["A."], 1, 0⟩, [])
    (decide ((0 : ℚ) ≤ s0)) hb1 (by decide)
  have h1' : step ⟨1, 0, 1⟩ [s0, s1] 1 "B." (⟨["A."], 1, 0⟩, []) =
      some (⟨["A.", "B."], 2, 1⟩, [⟨["A."], 1, 0⟩]) := by
    rw [h1]
    rfl
  have hb2 : same_topic_code ⟨1, 0, 1⟩ [s0, s1] 2 ["A.", "B."] =
      some (decide ((0 : ℚ) ≤ s1)) := rfl
  have h2 := step_close_of_not_fit ⟨1, 0, 1⟩ [s0, s1] 2 "C."
    (⟨["A.", "B."], 2, 1⟩, [⟨["A."], 1, 0⟩]) (decide ((0 : ℚ) ≤ s1)) hb2 (by decide)
  have h2' : step ⟨1, 0, 1⟩ [s0, s1] 2 "C." (⟨["A.", "B."], 2, 1⟩, [⟨["A."], 1, 0⟩]) =
      some (⟨["B.", "C."], 2, 1⟩, [⟨["A.", "B."], 2, 1⟩, ⟨["A."], 1, 0⟩]) := by
    rw [h2]
    rfl
  have hrun : assembleAux ⟨1, 0, 1⟩ [s0, s1] 0 ["A.", "B.", "C."] (⟨[], 0, 0⟩, []) =
      some (⟨["B.", "C."], 2, 1⟩, [⟨["A.", "B."], 2, 1⟩, ⟨["A."], 1, 0⟩]) := by
    simp only [assembleAux, h0, Nat.reduceAdd, h1', h2']
  unfold assemble
  rw [hrun]
  rfl

/-! ### Claim C6 -/

/-- Claim C6: with the unreachable threshold `min_similarity = 11/10`
(similarities of unit-normalized embeddings never reach it) and
`max_tokens = 2`, `overlap = 0`, every boundary is a topic boundary
and each sentence becomes its own chunk. -/
theorem unreachable_threshold_singleton_chunks (s0 s1 : ℚ)
    (hs0 : s0 < 11/10) (hs1 : s1 < 11/10) :
    (assemble ⟨2, 11/10, 0⟩ [s0, s1] ["A.", "B.", "C."]).map render =
      some ["A.", "B.", "C."] := by
  have h0 : step ⟨2, 11/10, 0⟩ [s0, s1] 0 "A." (⟨[], 0, 0⟩, []) =
      some (⟨["A."], 1, 0⟩, []) := rfl
  have hb1 : same_topic_code ⟨2, 11/10, 0⟩ [s0, s1] 1 ["A."] =
      some (decide ((11 : ℚ)/10 ≤ s0)) := rfl
  rw [decide_eq_false (not_le.2 hs0)] at hb1
  have h1 := step_close_of_not_same ⟨2, 11/10, 0⟩ [s0, s1] 1 "B." (⟨["A."], 1, 0⟩, []) hb1
  have h1' : step ⟨2, 11/10, 0⟩ [s0, s1] 1 "B." (⟨["A."], 1, 0⟩, []) =
      some (⟨["B."], 1, 0⟩, [⟨["A."], 1, 0⟩]) := by
    rw [h1]
    rfl
  have hb2 : same_topic_code ⟨2, 11/10, 0⟩ [s0, s1] 2 ["B."] =
      some (decide ((11 : ℚ)/10 ≤ s1)) := rfl
  rw [decide_eq_false (not_le.2 hs1)] at hb2
  have h2 := step_close_of_not_same ⟨2, 11/10, 0⟩ [s0, s1] 2 "C."
    (⟨["B."], 1, 0⟩, [⟨["A."], 1, 0⟩]) hb2
  have h2' : step ⟨2, 11/10, 0⟩ [s0, s1] 2 "C." (⟨["B."], 1, 0⟩, [⟨["A."], 1, 0⟩]) =
      some (⟨["C."], 1, 0⟩, [⟨["B."], 1, 0⟩, ⟨["A."], 1, 0⟩]) := by
    rw [h2]
    rfl
  have hrun : assembleAux ⟨2, 11/10, 0⟩ [s0, s1] 0 ["A.", "B.", "C."] (⟨[], 0, 0⟩, []) =
      some (⟨["C."], 1, 0⟩, [⟨["B."], 1, 0⟩, ⟨["A."], 1, 0⟩]) := by
    simp only [assembleAux, h0, Nat.reduceAdd, h1', h2']
  unfold assemble
  rw [hrun]
  rfl

/-- Witness for C6 with both similarities zero. -/
theorem unreachable_threshold_singleton_chunks_witness :
    (assemble ⟨2, 11/10, 0⟩ [0, 0] ["A.", "B.", "C."]).map render =
      some ["A.", "B.", "C."] :=
  unreachable_threshold_singleton_chunks 0 0 (by norm_num) (by norm_num)

/-- The spec's worked example E1: budget 2, no overlap, similarities
above the zero threshold pack the first two sentences together. -/
theorem budget_two_no_overlap_example :
    (assemble ⟨2, 0, 0⟩ [1, 1] ["A.", "B.", "C."]).map render =
      some ["A. B.", "C."] := by decide

end SemanticSplitter
